import Mathlib

/-!
Verification of the paper-assignment optimization core
(`paper_assignment.py` and `paper_assignment_complete.py`).

The program assigns papers to teams by building a dense team × paper bid
matrix and solving a binary integer program: one 0/1 variable per
(team, paper) pair, each team receives exactly one paper, each paper goes
to at most one team, and the total bid value of the selected pairs is
maximized.  The solving itself is delegated to the `gurobipy` backend,
which is external to the repository; it is modelled here as an exact
solver over the finite set of candidate 0/1 solutions.

Bid values (Python floats) are modelled as rationals, and paper / team
identifiers as strings, ordered by the standard lexicographic order on
strings.
-/

/-- A team record as produced by the ingestion layer and consumed by
`optimize_assignment` / `assign_papers`: the dict
`{'team_name': ..., 'members': ..., 'bids': {paper: bid}}` returned by
`read_bid_file`.  The bid mapping is modelled as an association list. -/
structure TeamData where
  team_name : String
  members : String
  bids : List (String × ℚ)
deriving DecidableEq

/-- One assignment record appended by the result-extraction loop
(`paper_assignment.py` lines 188-200): the dict with keys
`Team Name`, `Team Members`, `Assigned Paper`, `Bid Value`. -/
structure Assignment where
  teamName : String
  teamMembers : String
  assignedPaper : String
  bidValue : ℚ
deriving DecidableEq

/-- Outcome of `optimize_assignment` (`paper_assignment.py` lines
183-209): the `GRB.OPTIMAL` branch returns the assignment list and the
objective value; the `GRB.INFEASIBLE` branch and the catch-all branch
(`other`, carrying the raw backend status) each return `(None, None)`
to the caller but print distinct diagnostics, so they are modelled as
distinct constructors. -/
inductive SolveResult where
  | optimal (assignments : List Assignment) (objVal : ℚ)
  | infeasible
  | other (status : Nat)
deriving DecidableEq

/-- Outcome of the `main` entry point of `paper_assignment.py` after the
bid files have been loaded: either the "No valid bid files found" early
return (lines 232-234) or the result of running the optimization. -/
inductive MainOutcome where
  | emptyInputError
  | solved (r : SolveResult)
deriving DecidableEq

/-- All unique papers, sorted (`paper_assignment.py` lines 114-118):
`all_papers = sorted(list(set(⋃ team['bids'].keys())))`.  Python sorts
strings lexicographically by code point, which is the standard order on
`String`. -/
def allPapers (teams_data : List TeamData) : List String :=
  ((teams_data.flatMap (fun t => t.bids.map Prod.fst)).dedup).insertionSort (· ≤ ·)

/-- The team list (`paper_assignment.py` line 120):
`teams = [t['team_name'] for t in teams_data]`. -/
def teamsOf (teams_data : List TeamData) : List String :=
  teams_data.map (·.team_name)

/-- The dense bid matrix (`paper_assignment.py` lines 128-132):
`bid_matrix[team] = {paper: team_data['bids'].get(paper, 0) for paper in all_papers}`,
assigned once per record in input order, so for a duplicated team name the
later record overwrites the earlier one.  `reverse.find?` picks exactly
that last record. -/
def bid_matrix (teams_data : List TeamData) (team paper : String) : ℚ :=
  match teams_data.reverse.find? (fun td => td.team_name == team) with
  | some td => (td.bids.lookup paper).getD 0
  | none => 0

/-- A candidate 0/1 solution of the integer program, recorded as the list
of (team, paper) pairs whose decision variable is set to 1. -/
abbrev Sel := List (String × String)

/-- The 0/1 value of the decision variable `x[team, paper]` in a candidate
solution, as a Boolean. -/
def selFn (s : Sel) (team paper : String) : Bool :=
  decide ((team, paper) ∈ s)

/-- The solved numeric value `x[team, paper].X` of a decision variable:
the exact backend model returns exactly 0 or 1. -/
def solvedVal (s : Sel) (team paper : String) : ℚ :=
  if selFn s team paper then 1 else 0

/-- All candidate solutions in which every team's row has exactly one
variable set (one chosen paper per team, drawn from `papers`). -/
def selections (papers : List String) : List String → List Sel
  | [] => [[]]
  | t :: ts => papers.flatMap (fun p => (selections papers ts).map (fun s => (t, p) :: s))

/-- The constraint set of the integer program (`paper_assignment.py`
lines 158-172): for every team, the sum of its decision variables over
`all_papers` equals 1 (`OnePerTeam`); for every paper, the sum of the
decision variables over `teams` is at most 1 (`OnePerPaper`).  The sums
are taken over the `teams` / `all_papers` lists exactly as the
`quicksum` calls do, so a team name occurring twice in `teams`
contributes its (shared) variable twice to the paper-capacity sums. -/
def FeasibleAssign (teams papers : List String) (x : String → String → Bool) : Prop :=
  (∀ t ∈ teams, papers.countP (fun p => x t p) = 1) ∧
  (∀ p ∈ papers, teams.countP (fun t => x t p) ≤ 1)

instance (teams papers : List String) (x : String → String → Bool) :
    Decidable (FeasibleAssign teams papers x) := by
  unfold FeasibleAssign
  infer_instance

/-- The objective of the integer program (`paper_assignment.py` lines
152-156): `quicksum(bid_matrix[team][paper] * x[team, paper] for team in
teams for paper in all_papers)`. -/
def objective (B : String → String → ℚ) (teams papers : List String)
    (x : String → String → Bool) : ℚ :=
  (teams.map (fun t => (papers.map (fun p => if x t p then B t p else 0)).sum)).sum

/-- The candidate solutions that satisfy the constraint set. -/
def feasibleSels (teams papers : List String) : List Sel :=
  (selections papers teams).filter (fun s => decide (FeasibleAssign teams papers (selFn s)))

/-- Modelled from the spec: the integer-programming backend (`gurobipy`,
external to the repository).  Per spec section 4.2, `model.optimize()`
terminates `OPTIMAL` exactly when the constraints are satisfiable, in
which case the solved variable values form a feasible solution that
maximizes the objective, and terminates `INFEASIBLE` when they are not;
resource-limited terminations (`OTHER`) do not occur in the exact model.
The backend is modelled as choosing an objective-maximizing candidate
among the feasible 0/1 solutions (`none` means infeasible). -/
def solveBIP (B : String → String → ℚ) (teams papers : List String) : Option Sel :=
  (feasibleSels teams papers).argmax (fun s => objective B teams papers (selFn s))

/-- The result-extraction loop (`paper_assignment.py` lines 188-200):
for each team record, scan `all_papers` in order and append a record for
the first paper whose solved variable value exceeds 0.5; if none does,
the team is silently skipped (the `for` loop just ends). -/
def extractAssignments (teams_data : List TeamData) (all_papers : List String)
    (B : String → String → ℚ) (s : Sel) : List Assignment :=
  teams_data.filterMap (fun td =>
    (all_papers.find? (fun p => decide ((1 : ℚ)/2 < solvedVal s td.team_name p))).map
      (fun p =>
        { teamName := td.team_name
          teamMembers := td.members
          assignedPaper := p
          bidValue := B td.team_name p }))

/-- `optimize_assignment` (`paper_assignment.py` lines 103-209): build
`all_papers`, `teams` and `bid_matrix`, build and solve the model, and
dispatch on the solver status; on `OPTIMAL` extract the assignments and
return them with `model.objVal`. -/
def optimize_assignment (teams_data : List TeamData) : SolveResult :=
  let all_papers := allPapers teams_data
  let teams := teamsOf teams_data
  let B := bid_matrix teams_data
  match solveBIP B teams all_papers with
  | some s =>
      .optimal (extractAssignments teams_data all_papers B s)
        (objective B teams all_papers (selFn s))
  | none => .infeasible

/-- `assign_papers` (`paper_assignment_complete.py` lines 68-145): the
same matrix construction, model and extraction as `optimize_assignment`,
but any non-`OPTIMAL` status raises an exception carrying the raw backend
status (`GRB.INFEASIBLE` has status code 3). -/
def assign_papers (teams_data : List TeamData) : Except Nat (List Assignment × ℚ) :=
  let all_papers := allPapers teams_data
  let teams := teamsOf teams_data
  let B := bid_matrix teams_data
  match solveBIP B teams all_papers with
  | some s =>
      .ok (extractAssignments teams_data all_papers B s,
        objective B teams all_papers (selFn s))
  | none => .error 3

/-- The post-ingestion logic of `main` (`paper_assignment.py` lines
230-238): if no team records were loaded, report the empty-input error
and return before any model is constructed; otherwise run the
optimization. -/
def runMain (teams_data : List TeamData) : MainOutcome :=
  if teams_data.length = 0 then .emptyInputError
  else .solved (optimize_assignment teams_data)

/-- Scenario A input (spec section 8): two teams, two papers, team1 bids
`{P1: 10, P2: 0}`, team2 bids `{P1: 0, P2: 10}`. -/
def scnA : List TeamData :=
  [⟨"team1", "Alice", [("P1", 10), ("P2", 0)]⟩,
   ⟨"team2", "Bob", [("P1", 0), ("P2", 10)]⟩]

/-- Two records with the same team identifier bidding on different
papers: two teams' worth of records, two distinct papers. -/
def dupTeams : List TeamData :=
  [⟨"A", "m1", [("P1", 1)]⟩, ⟨"A", "m2", [("P2", 1)]⟩]

/-- Two records with the same team identifier and conflicting bids on the
same paper. -/
def dupBids : List TeamData :=
  [⟨"A", "m1", [("P1", 5)]⟩, ⟨"A", "m2", [("P1", 7)]⟩]

/-- A single team record with an empty bid mapping: one team, no papers. -/
def noPapers : List TeamData :=
  [⟨"A", "m1", []⟩]

/-! ### Counting helper lemmas -/

lemma countP_eq_sum_map {α : Type} (l : List α) (p : α → Bool) :
    l.countP p = (l.map (fun a => if p a then (1 : ℕ) else 0)).sum := by
  induction l with
  | nil => simp [List.countP_nil]
  | cons a l ih =>
      rw [List.countP_cons, List.map_cons, List.sum_cons, ih]
      omega

lemma sum_map_swap {α β : Type} (l1 : List α) (l2 : List β) (f : α → β → ℕ) :
    (l1.map (fun a => (l2.map (fun b => f a b)).sum)).sum
      = (l2.map (fun b => (l1.map (fun a => f a b)).sum)).sum := by
  induction l1 with
  | nil => simp
  | cons a l1 ih =>
      simp only [List.map_cons, List.sum_cons, ih, List.sum_map_add]

lemma two_le_countP_of_two_mem {α : Type} {l : List α} [DecidableEq α] {p : α → Bool} {a b : α}
    (ha : a ∈ l) (hb : b ∈ l) (hab : a ≠ b) (hpa : p a = true) (hpb : p b = true) :
    2 ≤ l.countP p := by
  rw [List.countP_eq_length_filter]
  have haf : a ∈ l.filter p := List.mem_filter.mpr ⟨ha, hpa⟩
  have hbf : b ∈ l.filter p := List.mem_filter.mpr ⟨hb, hpb⟩
  have hbe : b ∈ (l.filter p).erase a := (List.mem_erase_of_ne (Ne.symm hab)).mpr hbf
  have h1 : 1 ≤ ((l.filter p).erase a).length := List.length_pos.mpr (List.ne_nil_of_mem hbe)
  have h2 : ((l.filter p).erase a).length = (l.filter p).length - 1 :=
    List.length_erase_of_mem haf
  omega

lemma count_le_countP {α : Type} {l : List α} [DecidableEq α] {p : α → Bool} {a : α}
    (hpa : p a = true) : l.count a ≤ l.countP p := by
  rw [List.count_eq_countP]
  exact List.countP_mono_left (fun x _ hx => by
    rw [beq_iff_eq] at hx
    exact hx ▸ hpa)

/-! ### Feasibility lemmas: the model constraints force team count ≤ paper
count, and make any input with a duplicated team name infeasible. -/

lemma feasible_length_le {teams papers : List String} {x : String → String → Bool}
    (h : FeasibleAssign teams papers x) : teams.length ≤ papers.length := by
  obtain ⟨hA, hB⟩ := h
  have h1 : (teams.map (fun t => papers.countP (fun p => x t p))).sum = teams.length := by
    rw [List.map_congr_left (fun t ht => hA t ht)]
    simp
  have h2 : (papers.map (fun p => teams.countP (fun t => x t p))).sum ≤ papers.length := by
    calc (papers.map (fun p => teams.countP (fun t => x t p))).sum
        ≤ (papers.map (fun _ => 1)).sum := List.sum_le_sum (fun p hp => hB p hp)
      _ = papers.length := by simp
  have h3 : (teams.map (fun t => papers.countP (fun p => x t p))).sum
      = (papers.map (fun p => teams.countP (fun t => x t p))).sum := by
    simp only [countP_eq_sum_map]
    exact sum_map_swap teams papers (fun t p => if x t p then 1 else 0)
  omega

lemma not_feasible_of_dup {teams papers : List String} {x : String → String → Bool}
    (hd : ¬ teams.Nodup) : ¬ FeasibleAssign teams papers x := by
  intro h
  obtain ⟨hA, hB⟩ := h
  rw [List.nodup_iff_count_le_one] at hd
  push_neg at hd
  obtain ⟨t, ht2⟩ := hd
  have htmem : t ∈ teams := List.count_pos_iff.mp (by omega)
  have h1 : 0 < papers.countP (fun p => x t p) := by rw [hA t htmem]; omega
  obtain ⟨p, hp, hxp⟩ := List.countP_pos_iff.mp h1
  have h2 : teams.count t ≤ teams.countP (fun s => x s p) := count_le_countP hxp
  have h3 := hB p hp
  omega

/-! ### Candidate enumeration: soundness and completeness of `selections` -/

lemma selFn_eq_true_iff {s : Sel} {u q : String} :
    selFn s u q = true ↔ (u, q) ∈ s := by
  unfold selFn
  simp

lemma mem_selections {papers teams : List String} {s : Sel} :
    s ∈ selections papers teams ↔
      s.map Prod.fst = teams ∧ ∀ pr ∈ s, pr.2 ∈ papers := by
  induction teams generalizing s with
  | nil =>
      simp only [selections, List.mem_singleton]
      constructor
      · rintro rfl; simp
      · rintro ⟨h1, _⟩
        exact List.map_eq_nil_iff.mp h1
  | cons t ts ih =>
      simp only [selections, List.mem_flatMap, List.mem_map]
      constructor
      · rintro ⟨p, hp, s1, hs1, rfl⟩
        obtain ⟨h1, h2⟩ := ih.mp hs1
        refine ⟨by simp [h1], ?_⟩
        rintro pr hpr
        rcases List.mem_cons.mp hpr with rfl | h
        · exact hp
        · exact h2 pr h
      · rintro ⟨h1, h2⟩
        cases s with
        | nil => simp at h1
        | cons pr s1 =>
            obtain ⟨hfst, hrest⟩ : pr.1 = t ∧ s1.map Prod.fst = ts := by
              simpa using h1
            refine ⟨pr.2, h2 pr (by simp),
              s1, ih.mpr ⟨hrest, fun q hq => h2 q (by simp [hq])⟩, ?_⟩
            rw [← hfst]

lemma feasible_congr {teams papers : List String} {x y : String → String → Bool}
    (h : ∀ t ∈ teams, ∀ p ∈ papers, x t p = y t p) :
    FeasibleAssign teams papers x ↔ FeasibleAssign teams papers y := by
  have hrow : ∀ t ∈ teams,
      papers.countP (fun q => x t q) = papers.countP (fun q => y t q) :=
    fun t ht => List.countP_congr (fun q hq => by simp [h t ht q hq])
  have hcol : ∀ p ∈ papers,
      teams.countP (fun u => x u p) = teams.countP (fun u => y u p) :=
    fun p hp => List.countP_congr (fun u hu => by simp [h u hu p hp])
  unfold FeasibleAssign
  constructor <;> rintro ⟨hA, hB⟩ <;> refine ⟨fun t ht => ?_, fun p hp => ?_⟩
  · rw [← hrow t ht]; exact hA t ht
  · rw [← hcol p hp]; exact hB p hp
  · rw [hrow t ht]; exact hA t ht
  · rw [hcol p hp]; exact hB p hp

lemma objective_congr {B : String → String → ℚ} {teams papers : List String}
    {x y : String → String → Bool} (h : ∀ t ∈ teams, ∀ p ∈ papers, x t p = y t p) :
    objective B teams papers x = objective B teams papers y := by
  unfold objective
  refine congrArg List.sum (List.map_congr_left (fun t ht => ?_))
  refine congrArg List.sum (List.map_congr_left (fun p hp => ?_))
  rw [h t ht p hp]

lemma exists_selection_of_feasible {teams papers : List String} {x : String → String → Bool}
    (hx : FeasibleAssign teams papers x) :
    ∃ s ∈ selections papers teams, ∀ t ∈ teams, ∀ p ∈ papers, selFn s t p = x t p := by
  obtain ⟨hA, hB⟩ := hx
  have hfindsome : ∀ t ∈ teams, ∃ q2, papers.find? (fun p => x t p) = some q2 := by
    intro t ht
    have h1 : 0 < papers.countP (fun p => x t p) := by rw [hA t ht]; omega
    obtain ⟨q, hq, hxq⟩ := List.countP_pos_iff.mp h1
    cases hfind : papers.find? (fun p => x t p) with
    | none =>
        rw [List.find?_eq_none] at hfind
        exact absurd hxq (hfind q hq)
    | some q2 => exact ⟨q2, rfl⟩
  refine ⟨teams.map (fun t => (t, (papers.find? (fun p => x t p)).getD "")), ?_, ?_⟩
  · rw [mem_selections]
    constructor
    · rw [List.map_map]
      simp [Function.comp_def]
    · rintro pr hpr
      obtain ⟨t, ht, rfl⟩ := List.mem_map.mp hpr
      obtain ⟨q2, hq2⟩ := hfindsome t ht
      simp only [hq2, Option.getD_some]
      exact List.mem_of_find?_eq_some hq2
  · intro t ht p hp
    obtain ⟨q2, hfind⟩ := hfindsome t ht
    have hq2mem : q2 ∈ papers := List.mem_of_find?_eq_some hfind
    have hq2x : x t q2 = true := List.find?_some hfind
    unfold selFn
    cases hxp : x t p with
    | true =>
        have hpq2 : p = q2 := by
          by_contra hne
          have h2le := two_le_countP_of_two_mem (p := fun p => x t p) hp hq2mem hne hxp hq2x
          have := hA t ht
          omega
        subst hpq2
        simp only [decide_eq_true_eq]
        refine List.mem_map.mpr ⟨t, ht, ?_⟩
        rw [hfind]
        simp
    | false =>
        simp only [decide_eq_false_iff_not]
        intro hmem
        obtain ⟨t2, _, heq⟩ := List.mem_map.mp hmem
        obtain ⟨rfl, hpeq⟩ : t2 = t ∧ (papers.find? (fun p => x t2 p)).getD "" = p :=
          ⟨congrArg Prod.fst heq, congrArg Prod.snd heq⟩
        rw [hfind] at hpeq
        simp only [Option.getD_some] at hpeq
        rw [← hpeq, hq2x] at hxp
        exact Bool.true_eq_false.mp hxp

/-! ### An explicit feasible solution: pair team i with paper i -/

lemma selFn_zip_cons {t p u q : String} {ts ps : List String} :
    selFn ((t :: ts).zip (p :: ps)) u q = true ↔
      (u = t ∧ q = p) ∨ selFn (ts.zip ps) u q = true := by
  unfold selFn
  simp [Prod.mk.injEq, List.mem_cons, List.zip_cons_cons]

lemma zip_feasible {teams papers : List String} (hnd : teams.Nodup) (hpnd : papers.Nodup)
    (hlen : teams.length ≤ papers.length) :
    FeasibleAssign teams papers (selFn (teams.zip papers)) := by
  induction teams generalizing papers with
  | nil => exact ⟨by simp, fun p hp => by simp [List.countP_nil]⟩
  | cons t ts ih =>
      cases papers with
      | nil => simp at hlen
      | cons p ps =>
          have hlen2 : ts.length ≤ ps.length := by simpa using hlen
          have htni : t ∉ ts := (List.nodup_cons.mp hnd).1
          have hpni : p ∉ ps := (List.nodup_cons.mp hpnd).1
          obtain ⟨ihA, ihB⟩ := ih (List.nodup_cons.mp hnd).2 (List.nodup_cons.mp hpnd).2 hlen2
          constructor
          · intro u hu
            rcases List.mem_cons.mp hu with rfl | hu2
            · have hcongr : (p :: ps).countP (fun q => selFn ((u :: ts).zip (p :: ps)) u q)
                  = (p :: ps).countP (fun q => decide (q = p)) := by
                refine List.countP_congr (fun q _ => ?_)
                simp only [decide_eq_true_eq]
                rw [selFn_zip_cons]
                constructor
                · rintro (⟨-, rfl⟩ | hin)
                  · rfl
                  · exact absurd (List.of_mem_zip (selFn_eq_true_iff.mp hin)).1 htni
                · rintro rfl
                  exact Or.inl ⟨rfl, rfl⟩
              rw [hcongr, List.countP_cons]
              have hz : ps.countP (fun q => decide (q = p)) = 0 :=
                List.countP_eq_zero.mpr (fun q hq hdq => hpni ((of_decide_eq_true hdq) ▸ hq))
              simp [hz]
            · have hune : u ≠ t := fun h => htni (h ▸ hu2)
              have hcongr : (p :: ps).countP (fun q => selFn ((t :: ts).zip (p :: ps)) u q)
                  = (p :: ps).countP (fun q => selFn (ts.zip ps) u q) := by
                refine List.countP_congr (fun q _ => ?_)
                rw [selFn_zip_cons]
                constructor
                · rintro (⟨rfl, -⟩ | hin)
                  · exact absurd rfl hune
                  · exact hin
                · exact fun hin => Or.inr hin
              rw [hcongr, List.countP_cons]
              have hz : selFn (ts.zip ps) u p = false := by
                rw [Bool.eq_false_iff]
                intro hin
                exact hpni (List.of_mem_zip (selFn_eq_true_iff.mp hin)).2
              simp [hz, ihA u hu2]
          · intro q hq
            rcases List.mem_cons.mp hq with rfl | hq2
            · rw [List.countP_cons]
              have hz : ts.countP (fun u => selFn ((t :: ts).zip (q :: ps)) u q) = 0 := by
                refine List.countP_eq_zero.mpr (fun u hu hsel => ?_)
                rcases selFn_zip_cons.mp hsel with ⟨rfl, -⟩ | hin
                · exact htni hu
                · exact hpni (List.of_mem_zip (selFn_eq_true_iff.mp hin)).2
              rw [hz]
              have hsel : selFn ((t :: ts).zip (q :: ps)) t q = true :=
                selFn_zip_cons.mpr (Or.inl ⟨rfl, rfl⟩)
              rw [hsel]
              simp
            · have hqne : q ≠ p := fun h => hpni (h ▸ hq2)
              have hcongr : (t :: ts).countP (fun u => selFn ((t :: ts).zip (p :: ps)) u q)
                  = (t :: ts).countP (fun u => selFn (ts.zip ps) u q) := by
                refine List.countP_congr (fun u _ => ?_)
                rw [selFn_zip_cons]
                constructor
                · rintro (⟨-, rfl⟩ | hin)
                  · exact absurd rfl hqne
                  · exact hin
                · exact fun hin => Or.inr hin
              rw [hcongr, List.countP_cons]
              have hz : selFn (ts.zip ps) t q = false := by
                rw [Bool.eq_false_iff]
                intro hin
                exact htni (List.of_mem_zip (selFn_eq_true_iff.mp hin)).1
              simp [hz, ihB q hq2]

/-! ### find?, filterMap and row-sum helper lemmas -/

lemma find?_congr_pred {α : Type} {l : List α} {p q : α → Bool}
    (h : ∀ a ∈ l, p a = q a) : l.find? p = l.find? q := by
  induction l with
  | nil => rfl
  | cons a l ih =>
      have ha : p a = q a := h a (by simp)
      cases hqa : q a with
      | true =>
          rw [List.find?_cons_of_pos l (ha.trans hqa), List.find?_cons_of_pos l hqa]
      | false =>
          rw [List.find?_cons_of_neg l (by rw [ha, hqa]; exact Bool.false_ne_true),
            List.find?_cons_of_neg l (by rw [hqa]; exact Bool.false_ne_true)]
          exact ih (fun b hb => h b (by simp [hb]))

lemma find?_eq_some_split {α : Type} {l : List α} {p : α → Bool} {b : α}
    (h : l.find? p = some b) :
    ∃ l1 l2, l = l1 ++ b :: l2 ∧ p b = true ∧ ∀ a ∈ l1, p a = false := by
  induction l with
  | nil => simp at h
  | cons a l ih =>
      cases hpa : p a with
      | true =>
          rw [List.find?_cons_of_pos l hpa] at h
          obtain rfl : a = b := by injection h
          exact ⟨[], l, rfl, hpa, by simp⟩
      | false =>
          rw [List.find?_cons_of_neg l (by rw [hpa]; exact Bool.false_ne_true)] at h
          obtain ⟨l1, l2, rfl, hpb, hl1⟩ := ih h
          refine ⟨a :: l1, l2, rfl, hpb, ?_⟩
          intro c hc
          rcases List.mem_cons.mp hc with rfl | hc2
          · exact hpa
          · exact hl1 c hc2

lemma filterMap_eq_map_of_forall_some {α β : Type} {l : List α} {f : α → Option β} {g : α → β}
    (h : ∀ a ∈ l, f a = some (g a)) : l.filterMap f = l.map g := by
  induction l with
  | nil => rfl
  | cons a l ih =>
      rw [List.filterMap_cons, h a (by simp), List.map_cons,
        ih (fun b hb => h b (by simp [hb]))]

lemma sum_row_of_countP_one {l : List String} {pred : String → Bool} {f : String → ℚ} {b : String}
    (hfind : l.find? pred = some b) (hcount : l.countP pred = 1) :
    (l.map (fun q => if pred q then f q else 0)).sum = f b := by
  induction l with
  | nil => simp at hfind
  | cons a l ih =>
      cases hpa : pred a with
      | true =>
          rw [List.find?_cons_of_pos l hpa] at hfind
          obtain rfl : a = b := by injection hfind
          rw [List.countP_cons, hpa] at hcount
          simp at hcount
          rw [List.map_cons, List.sum_cons, hpa, if_pos rfl]
          have htail : (l.map (fun q => if pred q then f q else 0)).sum = 0 := by
            refine List.sum_eq_zero (fun v hv => ?_)
            obtain ⟨q, hq, rfl⟩ := List.mem_map.mp hv
            rw [hcount q hq]
            simp
          rw [htail, add_zero]
      | false =>
          rw [List.find?_cons_of_neg l (by rw [hpa]; exact Bool.false_ne_true)] at hfind
          rw [List.countP_cons, hpa] at hcount
          simp at hcount
          rw [List.map_cons, List.sum_cons, hpa, if_neg (by simp), zero_add]
          exact ih hfind hcount


/-! ### The exact backend: basic inversion lemmas -/

lemma mem_feasibleSels_iff {teams papers : List String} {s : Sel} :
    s ∈ feasibleSels teams papers ↔
      s ∈ selections papers teams ∧ FeasibleAssign teams papers (selFn s) := by
  unfold feasibleSels
  rw [List.mem_filter]
  simp

lemma solveBIP_eq_none_iff {B : String → String → ℚ} {teams papers : List String} :
    solveBIP B teams papers = none ↔ feasibleSels teams papers = [] := by
  unfold solveBIP
  exact List.argmax_eq_none

lemma solveBIP_some_feasible {B : String → String → ℚ} {teams papers : List String} {s : Sel}
    (h : solveBIP B teams papers = some s) :
    s ∈ selections papers teams ∧ FeasibleAssign teams papers (selFn s) :=
  mem_feasibleSels_iff.mp (List.argmax_mem (Option.mem_def.mpr h))

lemma solveBIP_some_max {B : String → String → ℚ} {teams papers : List String} {s s2 : Sel}
    (h : solveBIP B teams papers = some s) (h2 : s2 ∈ feasibleSels teams papers) :
    objective B teams papers (selFn s2) ≤ objective B teams papers (selFn s) :=
  List.le_of_mem_argmax (f := fun s3 => objective B teams papers (selFn s3)) h2
    (Option.mem_def.mpr h)

/-- The 0.5 threshold test of the extraction loop coincides with the 0/1
variable value in the exact backend model. -/
lemma threshold_pred_eq (s : Sel) (t p : String) :
    (decide ((1 : ℚ)/2 < solvedVal s t p)) = selFn s t p := by
  unfold solvedVal
  cases h : selFn s t p with
  | true =>
      rw [if_pos rfl]
      simp only [decide_eq_true_eq]
      norm_num
  | false =>
      rw [if_neg (by simp)]
      simp only [decide_eq_false_iff_not]
      norm_num

/-- The paper the extraction loop picks for a team: the first paper in
`papers` order whose solved variable value exceeds 0.5. -/
def chosenPaper (papers : List String) (s : Sel) (t : String) : String :=
  (papers.find? (fun p => decide ((1 : ℚ)/2 < solvedVal s t p))).getD ""

/-- The assignment record the extraction loop appends for one team
record, given that some paper crosses the threshold. -/
def extractRecord (papers : List String) (B : String → String → ℚ) (s : Sel)
    (td : TeamData) : Assignment :=
  { teamName := td.team_name
    teamMembers := td.members
    assignedPaper := chosenPaper papers s td.team_name
    bidValue := B td.team_name (chosenPaper papers s td.team_name) }

lemma find_chosen_some {papers : List String} {s : Sel} {t : String}
    (hcount : papers.countP (fun p => selFn s t p) = 1) :
    papers.find? (fun p => decide ((1 : ℚ)/2 < solvedVal s t p))
      = some (chosenPaper papers s t) ∧
    selFn s t (chosenPaper papers s t) = true ∧ chosenPaper papers s t ∈ papers := by
  have hpred : papers.find? (fun p => decide ((1 : ℚ)/2 < solvedVal s t p))
      = papers.find? (fun p => selFn s t p) :=
    find?_congr_pred (fun p _ => threshold_pred_eq s t p)
  cases hfind : papers.find? (fun p => selFn s t p) with
  | none =>
      rw [List.find?_eq_none] at hfind
      obtain ⟨q, hq, hxq⟩ := List.countP_pos_iff.mp (show 0 < papers.countP
        (fun p => selFn s t p) by omega)
      exact absurd hxq (hfind q hq)
  | some q =>
      have hchosen : chosenPaper papers s t = q := by
        unfold chosenPaper
        rw [hpred, hfind]
        rfl
      rw [hchosen, hpred, hfind]
      exact ⟨rfl, List.find?_some hfind, List.mem_of_find?_eq_some hfind⟩

lemma extract_eq_map {td : List TeamData} {s : Sel}
    (hfeas : FeasibleAssign (teamsOf td) (allPapers td) (selFn s)) :
    extractAssignments td (allPapers td) (bid_matrix td) s
      = td.map (extractRecord (allPapers td) (bid_matrix td) s) := by
  apply filterMap_eq_map_of_forall_some
  intro r hr
  have hcount : (allPapers td).countP (fun p => selFn s r.team_name p) = 1 :=
    hfeas.1 r.team_name (List.mem_map.mpr ⟨r, hr, rfl⟩)
  obtain ⟨hfind, -, -⟩ := find_chosen_some hcount
  rw [hfind]
  rfl

lemma optimal_inv {td : List TeamData} {as : List Assignment} {v : ℚ}
    (h : optimize_assignment td = .optimal as v) :
    ∃ s, solveBIP (bid_matrix td) (teamsOf td) (allPapers td) = some s ∧
      as = td.map (extractRecord (allPapers td) (bid_matrix td) s) ∧
      v = objective (bid_matrix td) (teamsOf td) (allPapers td) (selFn s) ∧
      FeasibleAssign (teamsOf td) (allPapers td) (selFn s) ∧
      (teamsOf td).Nodup := by
  simp only [optimize_assignment] at h
  cases hs : solveBIP (bid_matrix td) (teamsOf td) (allPapers td) with
  | none =>
      rw [hs] at h
      exact absurd h (by simp)
  | some s =>
      rw [hs] at h
      simp only [SolveResult.optimal.injEq] at h
      obtain ⟨h1, h2⟩ := h
      obtain ⟨hsel, hfeas⟩ := solveBIP_some_feasible hs
      have hnd : (teamsOf td).Nodup := by
        by_contra hdup
        exact not_feasible_of_dup hdup hfeas
      exact ⟨s, rfl, by rw [← h1, extract_eq_map hfeas], h2.symm, hfeas, hnd⟩

/-! ### Properties of the bid-matrix builder -/

lemma allPapers_nodup (td : List TeamData) : (allPapers td).Nodup := by
  unfold allPapers
  exact (List.perm_insertionSort _ _).nodup_iff.mpr (List.nodup_dedup _)

lemma allPapers_sorted_le (td : List TeamData) :
    (allPapers td).Sorted (· ≤ ·) := by
  unfold allPapers
  exact List.sorted_insertionSort _ _

lemma allPapers_mem_iff (td : List TeamData) (p : String) :
    p ∈ allPapers td ↔ ∃ t ∈ td, ∃ b, (p, b) ∈ t.bids := by
  unfold allPapers
  rw [(List.perm_insertionSort _ _).mem_iff, List.mem_dedup, List.mem_flatMap]
  constructor
  · rintro ⟨t, ht, hp⟩
    obtain ⟨pr, hpr, rfl⟩ := List.mem_map.mp hp
    exact ⟨t, ht, pr.2, by simpa using hpr⟩
  · rintro ⟨t, ht, b, hb⟩
    exact ⟨t, ht, List.mem_map.mpr ⟨(p, b), hb, rfl⟩⟩

lemma teamsOf_length (td : List TeamData) : (teamsOf td).length = td.length := by
  unfold teamsOf
  exact List.length_map td _

lemma bid_matrix_of_nodup {td : List TeamData} (hnd : (teamsOf td).Nodup) {r : TeamData}
    (hr : r ∈ td) (p : String) :
    bid_matrix td r.team_name p = (r.bids.lookup p).getD 0 := by
  unfold bid_matrix
  have hinj : ∀ x ∈ td, x.team_name = r.team_name → x = r := by
    intro x hx hxr
    exact List.inj_on_of_nodup_map hnd hx hr hxr
  cases hfind : td.reverse.find? (fun x => x.team_name == r.team_name) with
  | none =>
      rw [List.find?_eq_none] at hfind
      exact absurd (by simp) (hfind r (List.mem_reverse.mpr hr))
  | some x =>
      have hx : x ∈ td := List.mem_reverse.mp (List.mem_of_find?_eq_some hfind)
      have hxname : x.team_name = r.team_name := by
        have := List.find?_some hfind
        simpa using this
      rw [hinj x hx hxname]

/-! ### Infeasibility lemmas for `optimize_assignment` -/

lemma optimize_eq_infeasible_of_no_feasible {td : List TeamData}
    (h : ∀ x : String → String → Bool, ¬ FeasibleAssign (teamsOf td) (allPapers td) x) :
    optimize_assignment td = .infeasible := by
  simp only [optimize_assignment]
  cases hs : solveBIP (bid_matrix td) (teamsOf td) (allPapers td) with
  | none => rfl
  | some s => exact absurd (solveBIP_some_feasible hs).2 (h (selFn s))

lemma optimize_infeasible_of_lt {td : List TeamData}
    (h : (allPapers td).length < td.length) :
    optimize_assignment td = .infeasible := by
  refine optimize_eq_infeasible_of_no_feasible (fun x hx => ?_)
  have := feasible_length_le hx
  rw [teamsOf_length] at this
  omega

lemma optimize_infeasible_of_dup {td : List TeamData}
    (h : ¬ (teamsOf td).Nodup) :
    optimize_assignment td = .infeasible :=
  optimize_eq_infeasible_of_no_feasible (fun _ hx => not_feasible_of_dup h hx)

/-! ### Existence of an optimal solve when teams are distinct and papers
are plentiful -/

lemma optimize_eq_optimal_of_feasible {td : List TeamData}
    (hnd : (teamsOf td).Nodup)
    (hlen : td.length ≤ (allPapers td).length) :
    ∃ s, solveBIP (bid_matrix td) (teamsOf td) (allPapers td) = some s ∧
      optimize_assignment td =
        .optimal (td.map (extractRecord (allPapers td) (bid_matrix td) s))
          (objective (bid_matrix td) (teamsOf td) (allPapers td) (selFn s)) := by
  have hlen2 : (teamsOf td).length ≤ (allPapers td).length := by
    rw [teamsOf_length]; exact hlen
  have hzip : FeasibleAssign (teamsOf td) (allPapers td)
      (selFn ((teamsOf td).zip (allPapers td))) :=
    zip_feasible hnd (allPapers_nodup td) hlen2
  have hzipmem : (teamsOf td).zip (allPapers td) ∈ feasibleSels (teamsOf td) (allPapers td) := by
    rw [mem_feasibleSels_iff]
    refine ⟨mem_selections.mpr ⟨List.map_fst_zip _ _ hlen2, ?_⟩, hzip⟩
    rintro ⟨u, q⟩ hpr
    exact (List.of_mem_zip hpr).2
  cases hs : solveBIP (bid_matrix td) (teamsOf td) (allPapers td) with
  | none =>
      rw [solveBIP_eq_none_iff] at hs
      rw [hs] at hzipmem
      exact absurd hzipmem (List.not_mem_nil _)
  | some s =>
      refine ⟨s, rfl, ?_⟩
      simp only [optimize_assignment, hs]
      rw [extract_eq_map (solveBIP_some_feasible hs).2]

/-! ### The objective equals the recomputed sum over extracted records -/

lemma row_sum_eq_chosen {td : List TeamData} {s : Sel} {t : String}
    (hcount : (allPapers td).countP (fun p => selFn s t p) = 1) :
    ((allPapers td).map (fun p => if selFn s t p then bid_matrix td t p else 0)).sum
      = bid_matrix td t (chosenPaper (allPapers td) s t) := by
  obtain ⟨hfind, -, -⟩ := find_chosen_some hcount
  have hfind2 : (allPapers td).find? (fun p => selFn s t p)
      = some (chosenPaper (allPapers td) s t) := by
    rw [← hfind]
    exact find?_congr_pred (fun p _ => (threshold_pred_eq s t p).symm)
  exact sum_row_of_countP_one hfind2 hcount

lemma objective_eq_extract_sum {td : List TeamData} {s : Sel}
    (hfeas : FeasibleAssign (teamsOf td) (allPapers td) (selFn s)) :
    objective (bid_matrix td) (teamsOf td) (allPapers td) (selFn s)
      = ((td.map (extractRecord (allPapers td) (bid_matrix td) s)).map
          (fun a => bid_matrix td a.teamName a.assignedPaper)).sum := by
  unfold objective
  rw [List.map_map]
  show ((td.map (·.team_name)).map _).sum = _
  rw [List.map_map]
  refine congrArg List.sum (List.map_congr_left (fun r hr => ?_))
  have hcount : (allPapers td).countP (fun p => selFn s r.team_name p) = 1 :=
    hfeas.1 r.team_name (List.mem_map.mpr ⟨r, hr, rfl⟩)
  exact row_sum_eq_chosen hcount

lemma extract_map_teamName (td : List TeamData) (s : Sel) :
    (td.map (extractRecord (allPapers td) (bid_matrix td) s)).map (fun a => a.teamName)
      = teamsOf td := by
  rw [List.map_map]
  rfl

/-- The assignment records the program produces on Scenario A. -/
def scnAResult : List Assignment :=
  [⟨"team1", "Alice", "P1", 10⟩, ⟨"team2", "Bob", "P2", 10⟩]

/-! ## Claim theorems -/

/-- C8: on Scenario A — two teams and two papers, team1 bidding
`{P1: 10, P2: 0}` and team2 bidding `{P1: 0, P2: 10}` — the solve
terminates OPTIMAL with team1 assigned P1, team2 assigned P2, and
objective value 20. -/
theorem claim8_scenario_a :
    optimize_assignment scnA = .optimal scnAResult 20 := by
  with_unfolding_all decide

/-- C2: for every input in which the number of teams exceeds the number
of distinct papers, the solve terminates INFEASIBLE — the dedicated
`infeasible` outcome; explicitly, the result is never the OTHER/UNKNOWN
failure (`other st` for any raw status) and never an `optimal` result,
so the outcome is distinguishable from other solver failures and is not
degraded to a (partial) assignment. -/
theorem claim2_infeasible_of_more_teams (td : List TeamData)
    (h : (allPapers td).length < td.length) :
    optimize_assignment td = .infeasible ∧
    (∀ st : Nat, optimize_assignment td ≠ .other st) ∧
    (∀ (as : List Assignment) (v : ℚ), optimize_assignment td ≠ .optimal as v) := by
  have hinf := optimize_infeasible_of_lt h
  refine ⟨hinf, fun st hst => ?_, fun as v hopt => ?_⟩
  · rw [hinf] at hst
    exact absurd hst (by simp)
  · rw [hinf] at hopt
    exact absurd hopt (by simp)

theorem claim2_witness :
    optimize_assignment [⟨"A", "m1", [("P1", 1)]⟩, ⟨"B", "m2", [("P1", 2)]⟩] = .infeasible ∧
    (∀ st : Nat, optimize_assignment [⟨"A", "m1", [("P1", 1)]⟩, ⟨"B", "m2", [("P1", 2)]⟩]
      ≠ .other st) ∧
    (∀ (as : List Assignment) (v : ℚ),
      optimize_assignment [⟨"A", "m1", [("P1", 1)]⟩, ⟨"B", "m2", [("P1", 2)]⟩]
        ≠ .optimal as v) :=
  claim2_infeasible_of_more_teams
    [⟨"A", "m1", [("P1", 1)]⟩, ⟨"B", "m2", [("P1", 2)]⟩] (by with_unfolding_all decide)

/-- C1 counterexample: an input with two team records sharing the
identifier "A", bidding on two distinct papers.  The number of distinct
papers (2) is at least the number of teams (2) and every bid is a finite
non-negative number, yet the solve terminates INFEASIBLE, not OPTIMAL:
the duplicated identifier makes the two records share one row of
decision variables, which is then counted twice in every paper-capacity
constraint. -/
theorem claim1_counterexample :
    dupTeams.length ≤ (allPapers dupTeams).length ∧
    dupTeams.all (fun t => t.bids.all (fun pb => decide (0 ≤ pb.2))) = true ∧
    optimize_assignment dupTeams = .infeasible := by
  with_unfolding_all decide

/-- C1 (amended with pairwise-distinct team identifiers): for every
input whose team identifiers are distinct, in which the number of
distinct papers is at least the number of teams and every bid is a
finite non-negative number, the solve terminates OPTIMAL and the
returned objective value is the maximum of the objective over all
solutions satisfying the model constraints (each team exactly one
paper, each paper at most one team). -/
theorem claim1_optimal_of_enough_papers (td : List TeamData)
    (hnd : (teamsOf td).Nodup)
    (hlen : td.length ≤ (allPapers td).length)
    (hnn : ∀ t ∈ td, ∀ pb ∈ t.bids, 0 ≤ pb.2) :
    ∃ as v, optimize_assignment td = .optimal as v ∧
      (∃ x, FeasibleAssign (teamsOf td) (allPapers td) x ∧
        objective (bid_matrix td) (teamsOf td) (allPapers td) x = v) ∧
      (∀ x, FeasibleAssign (teamsOf td) (allPapers td) x →
        objective (bid_matrix td) (teamsOf td) (allPapers td) x ≤ v) := by
  obtain ⟨s, hs, hopt⟩ := optimize_eq_optimal_of_feasible hnd hlen
  refine ⟨_, _, hopt, ⟨selFn s, (solveBIP_some_feasible hs).2, rfl⟩, ?_⟩
  intro x hx
  obtain ⟨s2, hs2mem, hagree⟩ := exists_selection_of_feasible hx
  have hfeas2 : FeasibleAssign (teamsOf td) (allPapers td) (selFn s2) :=
    (feasible_congr hagree).mpr hx
  rw [← objective_congr hagree]
  exact solveBIP_some_max hs (mem_feasibleSels_iff.mpr ⟨hs2mem, hfeas2⟩)

theorem claim1_witness :
    ∃ as v, optimize_assignment scnA = .optimal as v ∧
      (∃ x, FeasibleAssign (teamsOf scnA) (allPapers scnA) x ∧
        objective (bid_matrix scnA) (teamsOf scnA) (allPapers scnA) x = v) ∧
      (∀ x, FeasibleAssign (teamsOf scnA) (allPapers scnA) x →
        objective (bid_matrix scnA) (teamsOf scnA) (allPapers scnA) x ≤ v) :=
  claim1_optimal_of_enough_papers scnA (by with_unfolding_all decide)
    (by with_unfolding_all decide) (by with_unfolding_all decide)

/-- C6 counterexample: two records share the identifier "A"; the first
declares bid 5 on paper P1 but the bid matrix silently holds 7, the
later record's bid — the builder merges the duplicate without any
data-integrity error — and the optimization reports the generic
INFEASIBLE outcome, not a data-integrity error. -/
theorem claim6_counterexample :
    ((⟨"A", "m1", [("P1", 5)]⟩ : TeamData) ∈ dupBids) ∧
    ((⟨"A", "m2", [("P1", 7)]⟩ : TeamData) ∈ dupBids) ∧
    allPapers dupBids = ["P1"] ∧
    bid_matrix dupBids "A" "P1" = 7 ∧
    optimize_assignment dupBids = .infeasible := by
  with_unfolding_all decide

/-- C6 (amended): matrix construction raises no error on duplicate team
identifiers (the later record's bids silently overwrite the earlier
record's in the matrix), but optimization never succeeds on such input:
any input whose team-identifier list contains a duplicate makes the
model infeasible — the duplicated records share their decision
variables, which are double-counted in the paper-capacity constraints —
so the solve surfaces INFEASIBLE and never an assignment. -/
theorem claim6_dup_never_merged_into_solve (td : List TeamData)
    (h : ¬ (teamsOf td).Nodup) :
    optimize_assignment td = .infeasible :=
  optimize_infeasible_of_dup h

theorem claim6_witness :
    optimize_assignment dupBids = .infeasible :=
  claim6_dup_never_merged_into_solve dupBids (by with_unfolding_all decide)

/-- C7 counterexample: a single team record with an empty bid mapping —
an input whose teams collectively reference no paper identifiers — is
not caught by the empty-input check in `main` (which only tests for
zero team records): the optimization model is constructed and solved,
and the INFEASIBLE outcome is reported instead of an empty-input
error. -/
theorem claim7_counterexample :
    allPapers noPapers = [] ∧
    runMain noPapers ≠ .emptyInputError ∧
    runMain noPapers = .solved .infeasible := by
  with_unfolding_all decide

/-- C7 (amended): `main` surfaces the empty-input error exactly for
inputs with no team records at all, before any optimization is run; an
input with team records but no paper identifiers instead proceeds to
model construction and yields the INFEASIBLE solve outcome. -/
theorem claim7_empty_input_check (td : List TeamData) :
    (runMain td = .emptyInputError ↔ td = []) ∧
    (td ≠ [] → allPapers td = [] → runMain td = .solved .infeasible) := by
  constructor
  · unfold runMain
    constructor
    · intro h
      by_contra hne
      rw [if_neg (by simpa using hne)] at h
      exact absurd h (by simp)
    · rintro rfl
      simp
  · intro hne hpap
    unfold runMain
    rw [if_neg (by simpa using hne)]
    rw [optimize_infeasible_of_lt (by rw [hpap]; exact List.length_pos.mpr hne)]

theorem claim7_witness :
    runMain ([] : List TeamData) = .emptyInputError ∧
    runMain noPapers = .solved .infeasible :=
  ⟨(claim7_empty_input_check []).1.mpr rfl,
    (claim7_empty_input_check noPapers).2 (by with_unfolding_all decide)
      (by with_unfolding_all decide)⟩

/-- C10: on every input with distinct team identifiers on which the
solve is feasible (OPTIMAL), the two implementation variants —
`optimize_assignment` of `paper_assignment.py` and `assign_papers` of
`paper_assignment_complete.py` — return the same objective value and the
same assignment records. -/
theorem claim10_variants_agree (td : List TeamData) (as : List Assignment) (v : ℚ)
    (hnd : (teamsOf td).Nodup)
    (h : optimize_assignment td = .optimal as v) :
    assign_papers td = .ok (as, v) := by
  simp only [optimize_assignment] at h
  simp only [assign_papers]
  cases hs : solveBIP (bid_matrix td) (teamsOf td) (allPapers td) with
  | none =>
      rw [hs] at h
      exact absurd h (by simp)
  | some s =>
      rw [hs] at h
      simp only [SolveResult.optimal.injEq] at h
      obtain ⟨rfl, rfl⟩ := h
      rfl

theorem claim10_witness :
    assign_papers scnA = .ok (scnAResult, 20) :=
  claim10_variants_agree scnA scnAResult 20 (by with_unfolding_all decide)
    (by with_unfolding_all decide)

/-- C3: whenever the solve terminates OPTIMAL, the returned objective
value equals the sum, over the extracted assignment records, of the
bid-matrix value at each record's (team, assigned paper) pair,
recomputed independently from those records (and likewise equals the
sum of the `Bid Value` fields stored in the records). -/
theorem claim3_objective_consistent (td : List TeamData) (as : List Assignment) (v : ℚ)
    (h : optimize_assignment td = .optimal as v) :
    v = (as.map (fun a => bid_matrix td a.teamName a.assignedPaper)).sum ∧
    v = (as.map (fun a => a.bidValue)).sum := by
  obtain ⟨s, -, rfl, rfl, hfeas, -⟩ := optimal_inv h
  have h1 := objective_eq_extract_sum hfeas
  refine ⟨h1, ?_⟩
  rw [h1, List.map_map, List.map_map]
  rfl

theorem claim3_witness :
    (20 : ℚ) = (scnAResult.map (fun a => bid_matrix scnA a.teamName a.assignedPaper)).sum ∧
    (20 : ℚ) = (scnAResult.map (fun a => a.bidValue)).sum :=
  claim3_objective_consistent scnA scnAResult 20 (by with_unfolding_all decide)

/-- C4: in the records produced by an OPTIMAL solve, no paper identifier
is the assigned paper of more than one record, and every team identifier
of the input appears as the team of exactly one record. -/
theorem claim4_one_to_one (td : List TeamData) (as : List Assignment) (v : ℚ)
    (h : optimize_assignment td = .optimal as v) :
    (∀ p : String, (as.map (fun a => a.assignedPaper)).count p ≤ 1) ∧
    (∀ t ∈ teamsOf td, (as.map (fun a => a.teamName)).count t = 1) := by
  obtain ⟨s, -, rfl, -, hfeas, hnd⟩ := optimal_inv h
  have hndm : (td.map (fun r => r.team_name)).Nodup := hnd
  constructor
  · have hnodup : ((td.map (extractRecord (allPapers td) (bid_matrix td) s)).map
        (fun a => a.assignedPaper)).Nodup := by
      rw [List.map_map]
      refine List.Nodup.map_on ?_ (List.Nodup.of_map _ hndm)
      intro r1 h1 r2 h2 heq
      dsimp only [Function.comp_apply, extractRecord] at heq
      have hc1 : (allPapers td).countP (fun p => selFn s r1.team_name p) = 1 :=
        hfeas.1 _ (List.mem_map.mpr ⟨r1, h1, rfl⟩)
      have hc2 : (allPapers td).countP (fun p => selFn s r2.team_name p) = 1 :=
        hfeas.1 _ (List.mem_map.mpr ⟨r2, h2, rfl⟩)
      obtain ⟨-, hsel1, -⟩ := find_chosen_some hc1
      obtain ⟨-, hsel2, hmem2⟩ := find_chosen_some hc2
      by_cases hname : r1.team_name = r2.team_name
      · exact List.inj_on_of_nodup_map hnd h1 h2 hname
      · exfalso
        rw [heq] at hsel1
        have h2le := two_le_countP_of_two_mem
          (l := teamsOf td)
          (p := fun t => selFn s t (chosenPaper (allPapers td) s r2.team_name))
          (List.mem_map.mpr ⟨r1, h1, rfl⟩) (List.mem_map.mpr ⟨r2, h2, rfl⟩)
          hname hsel1 hsel2
        have hcap := hfeas.2 _ hmem2
        omega
    intro p
    exact List.nodup_iff_count_le_one.mp hnodup p
  · intro t ht
    rw [extract_map_teamName]
    exact List.count_eq_one_of_mem hnd ht

theorem claim4_witness :
    (∀ p : String, (scnAResult.map (fun a => a.assignedPaper)).count p ≤ 1) ∧
    (∀ t ∈ teamsOf scnA, (scnAResult.map (fun a => a.teamName)).count t = 1) :=
  claim4_one_to_one scnA scnAResult 20 (by with_unfolding_all decide)

/-- C5 counterexample: on the input `dupBids` — two records both with
identifier "A", the first declaring bid 5 on paper P1, the later
declaring 7 — the record with declared bid 5 is in the input and P1 is
in the paper union, yet the matrix entry for ("A", "P1") is 7: the
matrix entry does not equal that record's declared bid. -/
theorem claim5_counterexample :
    ((⟨"A", "m1", [("P1", 5)]⟩ : TeamData) ∈ dupBids) ∧
    (((⟨"A", "m1", [("P1", 5)]⟩ : TeamData).bids.lookup "P1").getD 0 = 5) ∧
    allPapers dupBids = ["P1"] ∧
    bid_matrix dupBids "A" "P1" = 7 := by
  with_unfolding_all decide

/-- C5 (amended): for every input collection of team records the
builder produces (a) the deduplicated union of the papers appearing in
any team's bid mapping, sorted strictly lexicographically on the
identifier string, and (b) the team identifiers in input order;
provided the team identifiers are pairwise distinct it also produces
(c) a dense matrix whose entry at each (team, paper) pair of
teams x union-papers equals that team's declared bid when present and 0
otherwise.  Without distinctness the later record's bids silently win
(see the counterexample). -/
theorem claim5_builder (td : List TeamData) :
    (allPapers td).Sorted (· < ·) ∧
    (∀ p : String, p ∈ allPapers td ↔ ∃ t ∈ td, ∃ b, (p, b) ∈ t.bids) ∧
    teamsOf td = td.map (fun t => t.team_name) ∧
    ((teamsOf td).Nodup → ∀ r ∈ td, ∀ p ∈ allPapers td,
      bid_matrix td r.team_name p = (r.bids.lookup p).getD 0) :=
  ⟨(allPapers_sorted_le td).lt_of_le (allPapers_nodup td),
   fun p => allPapers_mem_iff td p, rfl,
   fun hnd r hr p _ => bid_matrix_of_nodup hnd hr p⟩

theorem claim5_witness :
    (allPapers scnA).Sorted (· < ·) ∧
    (∀ p : String, p ∈ allPapers scnA ↔ ∃ t ∈ scnA, ∃ b, (p, b) ∈ t.bids) ∧
    teamsOf scnA = scnA.map (fun t => t.team_name) ∧
    (∀ r ∈ scnA, ∀ p ∈ allPapers scnA,
      bid_matrix scnA r.team_name p = (r.bids.lookup p).getD 0) :=
  ⟨(claim5_builder scnA).1, (claim5_builder scnA).2.1, (claim5_builder scnA).2.2.1,
    (claim5_builder scnA).2.2.2 (by with_unfolding_all decide)⟩

/-- C9: after an OPTIMAL solve, the extraction produces one record per
input team record, in input order; each record's assigned paper is the
first paper in the canonical paper order whose solved decision-variable
value exceeds 0.5 (all papers before it in that order are below the
threshold); and exactly one variable per team crosses the threshold. -/
theorem claim9_extraction_first_over_threshold (td : List TeamData)
    (as : List Assignment) (v : ℚ)
    (h : optimize_assignment td = .optimal as v) :
    ∃ s, solveBIP (bid_matrix td) (teamsOf td) (allPapers td) = some s ∧
      as.length = td.length ∧
      (∀ i (hi : i < td.length) (hi2 : i < as.length),
        (as.get ⟨i, hi2⟩).teamName = (td.get ⟨i, hi⟩).team_name ∧
        (1 : ℚ)/2 < solvedVal s (td.get ⟨i, hi⟩).team_name (as.get ⟨i, hi2⟩).assignedPaper ∧
        (∃ l1 l2, allPapers td = l1 ++ (as.get ⟨i, hi2⟩).assignedPaper :: l2 ∧
          ∀ q ∈ l1, ¬ ((1 : ℚ)/2 < solvedVal s (td.get ⟨i, hi⟩).team_name q))) ∧
      (∀ t ∈ teamsOf td,
        (allPapers td).countP (fun p => decide ((1 : ℚ)/2 < solvedVal s t p)) = 1) := by
  obtain ⟨s, hs, rfl, -, hfeas, -⟩ := optimal_inv h
  refine ⟨s, hs, by rw [List.length_map], ?_, ?_⟩
  · intro i hi hi2
    have hget : (td.map (extractRecord (allPapers td) (bid_matrix td) s)).get ⟨i, hi2⟩
        = extractRecord (allPapers td) (bid_matrix td) s (td.get ⟨i, hi⟩) := by
      simp [List.get_eq_getElem, List.getElem_map]
    have hrmem : td.get ⟨i, hi⟩ ∈ td := List.get_mem td i hi
    have hcount : (allPapers td).countP
        (fun p => selFn s (td.get ⟨i, hi⟩).team_name p) = 1 :=
      hfeas.1 _ (List.mem_map.mpr ⟨td.get ⟨i, hi⟩, hrmem, rfl⟩)
    obtain ⟨hfind, hsel, hmem⟩ := find_chosen_some hcount
    obtain ⟨l1, l2, hsplitEq, hpredb, hl1⟩ := find?_eq_some_split hfind
    rw [hget]
    refine ⟨rfl, of_decide_eq_true hpredb, l1, l2, hsplitEq, ?_⟩
    intro q hq
    have := hl1 q hq
    simpa using this
  · intro t ht
    have hcongr : (allPapers td).countP (fun p => decide ((1 : ℚ)/2 < solvedVal s t p))
        = (allPapers td).countP (fun p => selFn s t p) :=
      List.countP_congr (fun p _ => by rw [threshold_pred_eq])
    rw [hcongr]
    exact hfeas.1 t ht

theorem claim9_witness :
    ∃ s, solveBIP (bid_matrix scnA) (teamsOf scnA) (allPapers scnA) = some s ∧
      scnAResult.length = scnA.length ∧
      (∀ i (hi : i < scnA.length) (hi2 : i < scnAResult.length),
        (scnAResult.get ⟨i, hi2⟩).teamName = (scnA.get ⟨i, hi⟩).team_name ∧
        (1 : ℚ)/2 < solvedVal s (scnA.get ⟨i, hi⟩).team_name
          (scnAResult.get ⟨i, hi2⟩).assignedPaper ∧
        (∃ l1 l2, allPapers scnA = l1 ++ (scnAResult.get ⟨i, hi2⟩).assignedPaper :: l2 ∧
          ∀ q ∈ l1, ¬ ((1 : ℚ)/2 < solvedVal s (scnA.get ⟨i, hi⟩).team_name q))) ∧
      (∀ t ∈ teamsOf scnA,
        (allPapers scnA).countP (fun p => decide ((1 : ℚ)/2 < solvedVal s t p)) = 1) :=
  claim9_extraction_first_over_threshold scnA scnAResult 20 (by with_unfolding_all decide)
